import Mathlib

/-!
Verification development for the `freq_conf` repository (volume/market-cap
screening scripts).  The Python sources `tools/binance.py`, `tools/self_time.py`
and `tools/self_time_50bilile.py` are shallowly embedded below:

* floats are modelled as `ℚ` (no NaN/inf arise in the modelled paths);
* Python dicts are modelled as association lists with first-match lookup,
  insertion prepending the new binding (lookup-equivalent to dict update);
* HTTP fetches are modelled as oracles: `none` models a request that raised,
  `some v` a parsed JSON response;
* file I/O on the cache is modelled by explicit state passing, with reads and
  writes succeeding; every cache-touching function also returns the list of
  CoinGecko pages it requested, so "number of network calls" is observable;
* a Python expression `a / b` with `b == 0` raises `ZeroDivisionError`; where
  the divisor is not locally guarded this is embedded with `Except`.
-/

namespace FreqConf

/-- Association-list model of a Python dict lookup `d.get(k)`: first binding
for the key wins (insertions prepend, so the first binding is the newest). -/
def dget {α : Type} : List (String × α) → String → Option α
  | [], _ => none
  | (k', v) :: d, k => if k' = k then some v else dget d k

/-- Association-list model of the Python dict update `d[k] = v`. -/
def dput {α : Type} (d : List (String × α)) (k : String) (v : α) : List (String × α) :=
  (k, v) :: d

/-- Market-cap mapping of `self_time.py` / `self_time_50bilile.py`
(`Dict[str, float]`, values filtered to be truthy before storage). -/
abbrev MCDict := List (String × ℚ)

/-- Market-cap mapping of `binance.py` (`item["market_cap"]` is stored
verbatim, so a JSON `null` — modelled as `none` — can be a value). -/
abbrev BDict := List (String × Option ℚ)

/-- One coin record of a CoinGecko `/coins/markets` page.  `symbol` models
`coin.get("symbol", "")` (a missing field yields `""`); `market_cap` models
the JSON value of `"market_cap"`, with `none` for `null`. -/
structure CGItem where
  symbol : String
  market_cap : Option ℚ
deriving DecidableEq

/-- Embedding of Python `str.upper()` on the ASCII strings handled by these
scripts: every character is upper-cased. -/
def pyUpper (s : String) : String :=
  ⟨s.data.map Char.toUpper⟩

/-- A string is upper-case in the sense used by the spec when it contains no
lower-case ASCII letter. -/
def isUpperStr (s : String) : Prop :=
  ∀ c ∈ s.data, ¬(97 ≤ c.toNat ∧ c.toNat ≤ 122)

/-- Character list of the quote-currency suffix `"USDT"`. -/
def usdtChars : List Char :=
  ['U', 'S', 'D', 'T']

/-- Embedding of Python `s.replace("USDT", "")` at the character-list level:
scan left to right, removing each non-overlapping occurrence of `"USDT"`. -/
def removeUSDTAux : List Char → List Char
  | 'U' :: 'S' :: 'D' :: 'T' :: rest => removeUSDTAux rest
  | c :: rest => c :: removeUSDTAux rest
  | [] => []

/-- Embedding of the Python expression `symbol.replace("USDT", "")`. -/
def pyReplaceUSDT (s : String) : String :=
  ⟨removeUSDTAux s.data⟩

/-- Base-ticker derivation used by every screener variant:
`symbol.replace("USDT", "").upper()`. -/
def deriveBase (symbol : String) : String :=
  pyUpper (pyReplaceUSDT symbol)

/-- Embedding of Python `symbol.endswith("USDT")`. -/
def endsWithUSDT (s : String) : Bool :=
  usdtChars.isSuffixOf s.data

/-- Base ticker as the spec describes it: the symbol with its trailing
quote-currency suffix `"USDT"` stripped and the remainder upper-cased.
This definition follows the spec's words, for comparison with `deriveBase`. -/
def specBaseTicker (s : String) : String :=
  pyUpper ⟨s.data.take (s.data.length - 4)⟩

/-- Test for an occurrence of `"USDT"` starting at position `p` of `l`. -/
def usdtOccursAt (l : List Char) (p : ℕ) : Bool :=
  usdtChars.isPrefixOf (l.drop p)

/-- Result record appended by every screener variant (the Python dict with
keys `symbol`, `volume_usdt`, `market_cap`, `ratio`, `price`, `change`,
`tag`). -/
structure ScreenResult where
  symbol : String
  volume_usdt : ℚ
  market_cap : ℚ
  ratio : ℚ
  price : ℚ
  change : ℚ
  tag : String
deriving DecidableEq

/-- Embedding of a Python division `a / b`: raises `ZeroDivisionError`
(modelled as `Except.error ()`) when the divisor is zero. -/
def pyDiv (a b : ℚ) : Except Unit ℚ :=
  if b = 0 then Except.error () else Except.ok (a / b)

/-- Result record built by `_check_symbol_volume_ratio` once a qualifying day
is found.  `tick` is the outcome of the `/fapi/v1/ticker/24hr` enrichment
fetch: `none` models the exception branch, which degrades `price` and
`change` to `0`. -/
def mkResult (symbol base : String) (mc vol ratio : ℚ) (tick : Option (ℚ × ℚ)) :
    ScreenResult :=
  { symbol := symbol
    volume_usdt := vol
    market_cap := mc
    ratio := ratio
    price := (tick.getD (0, 0)).1
    change := (tick.getD (0, 0)).2
    tag := base ++ "/USDT:USDT" }

/-- Insertion of a result into a list sorted by `ratio` descending. -/
def insertDesc (r : ScreenResult) : List ScreenResult → List ScreenResult
  | [] => [r]
  | x :: xs => if r.ratio ≤ x.ratio then x :: insertDesc r xs else r :: x :: xs

/-- Model of `results.sort(key=lambda x: x["ratio"], reverse=True)` /
`sorted(result, ..., reverse=True)`: a sort by `ratio` descending (the spec
leaves tie order arbitrary). -/
def sortDesc : List ScreenResult → List ScreenResult
  | [] => []
  | x :: xs => insertDesc x (sortDesc xs)

/-- Cache file of `self_time.py` / `self_time_50bilile.py`:
`{"timestamp": <seconds>, "data": {...}}`. -/
structure CacheFile where
  timestamp : ℚ
  data : MCDict
deriving DecidableEq

/-- Cache file of `binance.py`: the mapping is the file's top-level object and
expiry is judged from the file's modification time. -/
structure BCacheFile where
  mtime : ℚ
  data : BDict
deriving DecidableEq

/-- Per-coin merge step of the `self_time` variants:
`if symbol and market_cap: market_caps[symbol] = market_cap` after
`symbol = coin.get("symbol", "").upper()`; Python truthiness drops the empty
symbol, a `null` market cap and a zero market cap. -/
def mergeItem (d : MCDict) (it : CGItem) : MCDict :=
  match it.market_cap with
  | none => d
  | some v => if it.symbol = "" ∨ v = 0 then d else dput d (pyUpper it.symbol) v

/-- Merge of one successfully fetched CoinGecko page (`self_time` variants). -/
def mergeItems (d : MCDict) (items : List CGItem) : MCDict :=
  items.foldl mergeItem d

/-- Per-coin merge step of `binance.py`:
`market_caps[item["symbol"].upper()] = item["market_cap"]`, with no
filtering of zero or `null` market caps. -/
def bMergeItem (d : BDict) (it : CGItem) : BDict :=
  dput d (pyUpper it.symbol) it.market_cap

/-- Cache-validity test of the `self_time` variants:
`now - cache.get("timestamp", 0) < cache_ttl` on an existing cache file. -/
def selfCacheHit (st : Option CacheFile) (now ttl : ℚ) : Bool :=
  match st with
  | none => false
  | some f => now - f.timestamp < ttl

/-- Cache-validity test of `binance.py`: the file exists and
`time.time() - os.path.getmtime(cache_path) < cache_ttl`. -/
def bCacheHit (st : Option BCacheFile) (now ttl : ℚ) : Bool :=
  match st with
  | none => false
  | some f => now - f.mtime < ttl

namespace SelfTime

/-- Page loop of `self_time.py`'s `get_coingecko_market_caps`: starting at
`page`, with `rem` pages of the page budget left and accumulator `acc`,
request pages in ascending order; a raised request (`fetch p = none`) or an
empty page breaks out of the loop; a non-empty page is merged and the loop
continues.  Returns the merged mapping and the list of pages requested. -/
def fetchLoop (fetch : ℕ → Option (List CGItem)) : ℕ → ℕ → MCDict → MCDict × List ℕ
  | _, 0, acc => (acc, [])
  | page, rem + 1, acc =>
    match fetch page with
    | none => (acc, [page])
    | some [] => (acc, [page])
    | some (it :: its) =>
      let step := fetchLoop fetch (page + 1) rem (mergeItems acc (it :: its))
      (step.1, page :: step.2)

/-- Embedding of `self_time.py`'s `get_coingecko_market_caps`.  The state is
the cache file (`none` when no file exists), `now` is `time.time()`, and
`fetch p` is the outcome of requesting CoinGecko page `p`.  Returns the
mapping handed back to the caller, the cache file afterwards, and the pages
requested.  On a cache miss the fetched mapping is always written back
(`json.dump({"timestamp": now, "data": market_caps}, f)`), even when it is
empty; there is no stale-cache fallback path in this variant. -/
def get_coingecko_market_caps (st : Option CacheFile) (now : ℚ)
    (fetch : ℕ → Option (List CGItem)) (pages : ℕ) (ttl : ℚ) :
    MCDict × Option CacheFile × List ℕ :=
  match st with
  | some f =>
    if now - f.timestamp < ttl then (f.data, st, [])
    else
      let step := fetchLoop fetch 1 pages []
      (step.1, some ⟨now, step.1⟩, step.2)
  | none =>
    let step := fetchLoop fetch 1 pages []
    (step.1, some ⟨now, step.1⟩, step.2)

end SelfTime

namespace Binance

/-- Page loop of `binance.py`'s `get_coingecko_market_caps`: every page of the
budget is requested; a raised request is only logged (no `break`), an empty
page merges nothing, and there is no per-item filtering. -/
def fetchLoop (fetch : ℕ → Option (List CGItem)) : ℕ → ℕ → BDict → BDict × List ℕ
  | _, 0, acc => (acc, [])
  | page, rem + 1, acc =>
    let acc' :=
      match fetch page with
      | none => acc
      | some items => items.foldl bMergeItem acc
    let step := fetchLoop fetch (page + 1) rem acc'
    (step.1, page :: step.2)

/-- Embedding of `binance.py`'s `get_coingecko_market_caps`.  A fresh cache
file (age below `ttl`) is returned without network access; otherwise the
pages are fetched, a non-empty merged mapping is persisted and returned, an
empty merged mapping falls back to the existing cache file (read verbatim,
not rewritten), and with no cache file an empty mapping is returned. -/
def get_coingecko_market_caps (st : Option BCacheFile) (now : ℚ)
    (fetch : ℕ → Option (List CGItem)) (pages : ℕ) (ttl : ℚ) :
    BDict × Option BCacheFile × List ℕ :=
  match st with
  | some f =>
    if now - f.mtime < ttl then (f.data, st, [])
    else
      let step := fetchLoop fetch 1 pages []
      if step.1 = [] then (f.data, st, step.2)
      else (step.1, some ⟨now, step.1⟩, step.2)
  | none =>
    let step := fetchLoop fetch 1 pages []
    if step.1 = [] then ([], none, step.2)
    else (step.1, some ⟨now, step.1⟩, step.2)

end Binance

/-- Parameters of the `/fapi/v1/klines` request built by `get_daily_volume`
(identical in `self_time.py` and `self_time_50bilile.py`). -/
structure KlinesParams where
  symbol : String
  interval : String
  startTime : ℤ
  endTime : ℤ
  limit : ℕ
deriving DecidableEq

/-- Request construction of `get_daily_volume`: the date string is parsed
with `datetime.strptime(date_str, "%Y%m%d")` into a naive datetime (here
`day`, the parsed calendar date as a day count since the Unix epoch) and
converted with `.timestamp()`, which interprets a naive datetime in the
machine's local timezone, resolving the UTC offset in effect at that very
instant (daylight-saving time included): it yields the naive instant's epoch
seconds minus that offset.  Both converted instants are local midnights, so
the machine's timezone enters the model as `tzOffset d`, the local UTC
offset (in seconds) in effect at the local midnight opening day `d`; on a
UTC machine `tzOffset` is constantly `0`, and across a DST transition
`tzOffset day` and `tzOffset (day + 1)` differ.  `end` is the conversion of
`date + timedelta(days=1)`, both are scaled to milliseconds, and `limit` is
the literal `1`. -/
def dailyVolumeRequest (tzOffset : ℤ → ℤ) (symbol : String) (day : ℤ) : KlinesParams :=
  { symbol := symbol
    interval := "1d"
    startTime := (day * 86400 - tzOffset day) * 1000
    endTime := ((day + 1) * 86400 - tzOffset (day + 1)) * 1000
    limit := 1 }

/-- Volume extraction of `get_daily_volume` from the klines response:
an empty response yields `0.0`, otherwise `close_price * volume` of the
single returned candle (fields 4 and 5). -/
def dailyVolumeOfKlines (klines : List (ℚ × ℚ)) : ℚ :=
  match klines with
  | [] => 0
  | (close, vol) :: _ => close * vol

namespace SelfTime

/-- Day-scan loop of `self_time.py`'s `_check_symbol_volume_ratio`, at offset
`i` with `rem` offsets of the window left.  `vol i` is the outcome of
`get_daily_volume` for the day `i` days before the target date (`none`
models the exception branch, whose handler sets `volume_usdt = 0`).  The
ratio `volume_usdt / market_cap` is divided unconditionally, so a zero
market cap raises (`Except.error`). -/
def checkLoop (vol : ℕ → Option ℚ) (tick : Option (ℚ × ℚ)) (symbol base : String)
    (mc thr : ℚ) : ℕ → ℕ → Except Unit (Option ScreenResult)
  | _, 0 => Except.ok none
  | i, rem + 1 =>
    let v := (vol i).getD 0
    match pyDiv v mc with
    | Except.error e => Except.error e
    | Except.ok r =>
      if r > thr then Except.ok (some (mkResult symbol base mc v r tick))
      else checkLoop vol tick symbol base mc thr (i + 1) rem

/-- Embedding of `self_time.py`'s `_check_symbol_volume_ratio`. -/
def check_symbol_volume_ratio (vol : ℕ → Option ℚ) (tick : Option (ℚ × ℚ))
    (symbol base : String) (mc : ℚ) (days : ℕ) (thr : ℚ) :
    Except Unit (Option ScreenResult) :=
  checkLoop vol tick symbol base mc thr 0 days

/-- Per-symbol eligibility filter of `get_high_volume_to_marketcap_contracts`
in `self_time.py`: the base ticker must not be `BTC`/`ETH` and
`cg_market_caps.get(base)` must be truthy (`not market_cap or market_cap == 0`
skips the symbol).  Returns the market cap of an eligible symbol. -/
def eligibleMC (cg : MCDict) (symbol : String) : Option ℚ :=
  let base := deriveBase symbol
  if base = "BTC" ∨ base = "ETH" then none
  else
    match dget cg base with
    | none => none
    | some mc => if mc = 0 then none else some mc

/-- Fan-out of the per-symbol checks of `self_time.py`, linearised in symbol
order (the thread pool's completion order is irrelevant: the caller re-sorts).
`vol s i` and `tick s` are the fetch outcomes for symbol `s`. -/
def collectResults (cg : MCDict) (vol : String → ℕ → Option ℚ)
    (tick : String → Option (ℚ × ℚ)) (days : ℕ) (thr : ℚ) :
    List String → Except Unit (List ScreenResult)
  | [] => Except.ok []
  | s :: rest =>
    match eligibleMC cg s with
    | none => collectResults cg vol tick days thr rest
    | some mc =>
      match check_symbol_volume_ratio (vol s) (tick s) s (deriveBase s) mc days thr with
      | Except.error e => Except.error e
      | Except.ok none => collectResults cg vol tick days thr rest
      | Except.ok (some r) =>
        match collectResults cg vol tick days thr rest with
        | Except.error e => Except.error e
        | Except.ok rs => Except.ok (r :: rs)

/-- Embedding of `self_time.py`'s `get_high_volume_to_marketcap_contracts`,
given the already-obtained market-cap mapping and symbol catalog: filter to
eligible symbols, run the day-scan per symbol, sort the collected results by
ratio descending and truncate to `limit`. -/
def get_high_volume_to_marketcap_contracts (symbols : List String) (cg : MCDict)
    (vol : String → ℕ → Option ℚ) (tick : String → Option (ℚ × ℚ))
    (days : ℕ) (thr : ℚ) (limit : ℕ) : Except Unit (List ScreenResult) :=
  match collectResults cg vol tick days thr symbols with
  | Except.error e => Except.error e
  | Except.ok results => Except.ok ((sortDesc results).take limit)

end SelfTime

namespace Fifty

/-- Day-scan loop of `self_time_50bilile.py`'s `_check_symbol_volume_ratio`:
identical to the `self_time.py` loop except for the defensive
`if market_cap == 0: continue` guard before the division, which makes the
division total. -/
def checkLoop (vol : ℕ → Option ℚ) (tick : Option (ℚ × ℚ)) (symbol base : String)
    (mc thr : ℚ) : ℕ → ℕ → Option ScreenResult
  | _, 0 => none
  | i, rem + 1 =>
    let v := (vol i).getD 0
    if mc = 0 then checkLoop vol tick symbol base mc thr (i + 1) rem
    else
      let r := v / mc
      if r > thr then some (mkResult symbol base mc v r tick)
      else checkLoop vol tick symbol base mc thr (i + 1) rem

/-- Embedding of `self_time_50bilile.py`'s `_check_symbol_volume_ratio`. -/
def check_symbol_volume_ratio (vol : ℕ → Option ℚ) (tick : Option (ℚ × ℚ))
    (symbol base : String) (mc : ℚ) (days : ℕ) (thr : ℚ) : Option ScreenResult :=
  checkLoop vol tick symbol base mc thr 0 days

end Fifty

/-- One `/fapi/v1/ticker/24hr` record as consumed by `binance.py`'s screener. -/
structure Contract24h where
  symbol : String
  quoteVolume : ℚ
  lastPrice : ℚ
  priceChangePercent : ℚ
deriving DecidableEq

namespace Binance

/-- Per-contract decision of `binance.py`'s
`get_high_volume_to_marketcap_contracts`: skip non-`USDT` symbols, excluded
base tickers and unknown/zero market caps; otherwise compute
`ratio = volume / market_cap` and keep the contract when `ratio >= threshold`
(the comparison in this variant is non-strict). -/
def consider (cg : BDict) (thr : ℚ) (c : Contract24h) : Option ScreenResult :=
  if ¬ endsWithUSDT c.symbol then none
  else
    let base := deriveBase c.symbol
    if base = "BTC" ∨ base = "ETH" then none
    else
      match dget cg base with
      | none => none
      | some none => none
      | some (some mc) =>
        if mc = 0 then none
        else
          let ratio := c.quoteVolume / mc
          if ratio ≥ thr then
            some { symbol := c.symbol
                   volume_usdt := c.quoteVolume
                   market_cap := mc
                   ratio := ratio
                   price := c.lastPrice
                   change := c.priceChangePercent
                   tag := base ++ "/USDT:USDT" }
          else none

/-- Embedding of `binance.py`'s `get_high_volume_to_marketcap_contracts`,
given the 24h-ticker snapshot and the market-cap mapping: filter the
contracts, sort by ratio descending, truncate to `limit`. -/
def get_high_volume_to_marketcap_contracts (contracts : List Contract24h)
    (cg : BDict) (thr : ℚ) (limit : ℕ) : List ScreenResult :=
  (sortDesc (contracts.filterMap (consider cg thr))).take limit

end Binance

/-- Specification-side description of the day scan: the first offset
`i < days` (offset `i` standing for the day `i` days before the target date,
so smaller offsets are more recent) whose ratio — with a failed fetch
(`vol i = none`) treated as a volume of `0` — strictly exceeds the
threshold. -/
def specFirstQualifying (vol : ℕ → Option ℚ) (mc thr : ℚ) (days : ℕ) : Option ℕ :=
  (List.range days).find? (fun i => decide ((vol i).getD 0 / mc > thr))

/-- Truthy, non-raising page outcome: a parsed response with at least one
entry (`if not data: break` does not fire). -/
def okNonempty (r : Option (List CGItem)) : Bool :=
  match r with
  | some (_ :: _) => true
  | _ => false

/-- Specification-side page protocol of §4.1: the pages that return entries
form the longest such ascending run starting at page 1. -/
def specGoodPages (fetch : ℕ → Option (List CGItem)) (pages : ℕ) : List ℕ :=
  (List.range' 1 pages).takeWhile (fun p => okNonempty (fetch p))

/-- Specification-side merged mapping: the entry-returning run of pages,
merged in ascending page order. -/
def specMerged (fetch : ℕ → Option (List CGItem)) (pages : ℕ) : MCDict :=
  (specGoodPages fetch pages).foldl (fun d p => mergeItems d ((fetch p).getD [])) []

/-- Specification-side requested pages: the entry-returning run plus the one
page (if the budget allows) that stopped the loop. -/
def specRequested (fetch : ℕ → Option (List CGItem)) (pages : ℕ) : List ℕ :=
  (List.range' 1 pages).take ((specGoodPages fetch pages).length + 1)

/-- Market-cap mapping invariant of the `self_time` variants: every
lookup-reachable binding has an upper-case key and a nonzero value. -/
def GoodDict (d : MCDict) : Prop :=
  ∀ k v, dget d k = some v → isUpperStr k ∧ v ≠ 0

/-- Cache-state invariant: the cache file, when present, stores a mapping
satisfying `GoodDict`. -/
def GoodState : Option CacheFile → Prop
  | none => True
  | some f => GoodDict f.data

/-! Helper lemmas about upper-casing and the dict model. -/

theorem toUpper_not_lower (c : Char) :
    ¬(97 ≤ (Char.toUpper c).toNat ∧ (Char.toUpper c).toNat ≤ 122) := by
  by_cases h : 97 ≤ c.toNat ∧ c.toNat ≤ 122
  · obtain ⟨h1, h2⟩ := h
    have hup : Char.toUpper c = Char.ofNat (c.toNat - 32) := by
      simp [Char.toUpper, h1, h2]
    rw [hup]
    set n := c.toNat with hn
    interval_cases n <;> decide
  · have hup : Char.toUpper c = c := by
      simp only [Char.toUpper]
      rw [if_neg]
      exact fun hc => h ⟨hc.1, hc.2⟩
    rw [hup]
    exact h

theorem isUpperStr_pyUpper (s : String) : isUpperStr (pyUpper s) := by
  intro c hc
  simp only [pyUpper, List.mem_map] at hc
  obtain ⟨a, _, rfl⟩ := hc
  exact toUpper_not_lower a

theorem dget_dput {α : Type} (d : List (String × α)) (k : String) (v : α) (k' : String) :
    dget (dput d k v) k' = if k = k' then some v else dget d k' := by
  simp [dget, dput]

/-! Provenance of the entries of the `self_time` market-cap mapping: every
binding reachable by lookup either was already in the accumulator or stems
from a fetched item that passed the truthiness filter. -/

theorem dget_mergeItem (d : MCDict) (it : CGItem) (k : String) (v : ℚ)
    (h : dget (mergeItem d it) k = some v) :
    dget d k = some v ∨
      (it.symbol ≠ "" ∧ it.market_cap = some v ∧ v ≠ 0 ∧ k = pyUpper it.symbol) := by
  cases hmc : it.market_cap with
  | none => simp only [mergeItem, hmc] at h; exact Or.inl h
  | some w =>
    simp only [mergeItem, hmc] at h
    by_cases hskip : it.symbol = "" ∨ w = 0
    · rw [if_pos hskip] at h
      exact Or.inl h
    · rw [if_neg hskip] at h
      push_neg at hskip
      rw [dget_dput] at h
      by_cases hk : pyUpper it.symbol = k
      · rw [if_pos hk] at h
        injection h with hw
        subst hw
        exact Or.inr ⟨hskip.1, rfl, hskip.2, hk.symm⟩
      · rw [if_neg hk] at h
        exact Or.inl h

theorem dget_mergeItems (items : List CGItem) :
    ∀ (d : MCDict) (k : String) (v : ℚ), dget (mergeItems d items) k = some v →
      dget d k = some v ∨
        ∃ it ∈ items, it.symbol ≠ "" ∧ it.market_cap = some v ∧ v ≠ 0 ∧ k = pyUpper it.symbol := by
  induction items with
  | nil => intro d k v h; exact Or.inl h
  | cons it rest ih =>
    intro d k v h
    have hstep := ih (mergeItem d it) k v h
    rcases hstep with hacc | ⟨it', hmem, hgood⟩
    · rcases dget_mergeItem d it k v hacc with hd | hgood
      · exact Or.inl hd
      · exact Or.inr ⟨it, List.mem_cons_self it rest, hgood⟩
    · exact Or.inr ⟨it', List.mem_cons_of_mem it hmem, hgood⟩

theorem dget_selfTime_fetchLoop (fetch : ℕ → Option (List CGItem)) :
    ∀ (rem page : ℕ) (acc : MCDict) (k : String) (v : ℚ),
      dget (SelfTime.fetchLoop fetch page rem acc).1 k = some v →
      dget acc k = some v ∨
        ∃ p items it, fetch p = some items ∧ it ∈ items ∧
          it.symbol ≠ "" ∧ it.market_cap = some v ∧ v ≠ 0 ∧ k = pyUpper it.symbol := by
  intro rem
  induction rem with
  | zero => intro page acc k v h; exact Or.inl h
  | succ n ih =>
    intro page acc k v h
    unfold SelfTime.fetchLoop at h
    cases hf : fetch page with
    | none => rw [hf] at h; exact Or.inl h
    | some items =>
      rw [hf] at h
      cases items with
      | nil => exact Or.inl h
      | cons it its =>
        simp only at h
        rcases ih (page + 1) (mergeItems acc (it :: its)) k v h with hacc | hrest
        · rcases dget_mergeItems (it :: its) acc k v hacc with hd | ⟨it', hmem, hgood⟩
          · exact Or.inl hd
          · exact Or.inr ⟨page, it :: its, it', hf, hmem, hgood⟩
        · rcases hrest with ⟨p, items', it', hl⟩
          exact Or.inr ⟨p, items', it', hl⟩

/-! Sortedness and length of the final ranking step. -/

theorem mem_insertDesc (r x : ScreenResult) :
    ∀ l : List ScreenResult, x ∈ insertDesc r l ↔ x = r ∨ x ∈ l := by
  intro l
  induction l with
  | nil => simp [insertDesc]
  | cons y ys ih =>
    by_cases h : r.ratio ≤ y.ratio
    · simp only [insertDesc, if_pos h, List.mem_cons, ih]
      try tauto
    · simp only [insertDesc, if_neg h, List.mem_cons]
      try tauto

theorem sorted_insertDesc (r : ScreenResult) :
    ∀ l : List ScreenResult, l.Pairwise (fun a b => b.ratio ≤ a.ratio) →
      (insertDesc r l).Pairwise (fun a b => b.ratio ≤ a.ratio) := by
  intro l
  induction l with
  | nil => intro _; simp [insertDesc]
  | cons y ys ih =>
    intro h
    rw [List.pairwise_cons] at h
    obtain ⟨hy, hys⟩ := h
    simp only [insertDesc]
    by_cases hc : r.ratio ≤ y.ratio
    · rw [if_pos hc, List.pairwise_cons]
      refine ⟨fun z hz => ?_, ih hys⟩
      rcases (mem_insertDesc r z ys).1 hz with rfl | hzys
      · exact hc
      · exact hy z hzys
    · rw [if_neg hc, List.pairwise_cons]
      push_neg at hc
      refine ⟨fun z hz => ?_, List.pairwise_cons.mpr ⟨hy, hys⟩⟩
      rcases List.mem_cons.mp hz with rfl | hzys
      · exact le_of_lt hc
      · exact le_trans (hy z hzys) (le_of_lt hc)

theorem sorted_sortDesc (l : List ScreenResult) :
    (sortDesc l).Pairwise (fun a b => b.ratio ≤ a.ratio) := by
  induction l with
  | nil => simp [sortDesc]
  | cons x xs ih => exact sorted_insertDesc x (sortDesc xs) ih

theorem length_insertDesc (r : ScreenResult) :
    ∀ l : List ScreenResult, (insertDesc r l).length = l.length + 1 := by
  intro l
  induction l with
  | nil => simp [insertDesc]
  | cons y ys ih =>
    simp only [insertDesc]
    by_cases hc : r.ratio ≤ y.ratio
    · rw [if_pos hc]; simp [ih]
    · rw [if_neg hc]; simp

theorem length_sortDesc (l : List ScreenResult) : (sortDesc l).length = l.length := by
  induction l with
  | nil => rfl
  | cons x xs ih => simp [sortDesc, length_insertDesc, ih]

/-! Characterisation of the per-symbol day scans. -/

theorem selfTime_checkLoop_eq (vol : ℕ → Option ℚ) (tick : Option (ℚ × ℚ))
    (symbol base : String) (mc thr : ℚ) (hmc : mc ≠ 0) :
    ∀ (rem i : ℕ),
      SelfTime.checkLoop vol tick symbol base mc thr i rem =
        Except.ok (((List.range' i rem).find? (fun j => decide ((vol j).getD 0 / mc > thr))).map
          (fun j => mkResult symbol base mc ((vol j).getD 0) ((vol j).getD 0 / mc) tick)) := by
  intro rem
  induction rem with
  | zero => intro i; simp [SelfTime.checkLoop]
  | succ n ih =>
    intro i
    simp only [SelfTime.checkLoop, pyDiv, if_neg hmc, List.range'_succ]
    by_cases hq : (vol i).getD 0 / mc > thr
    · rw [List.find?_cons_of_pos _ (by simpa using hq)]
      simp [hq]
    · rw [List.find?_cons_of_neg _ (by simpa using hq)]
      simp only [if_neg hq]
      exact ih (i + 1)

theorem fifty_checkLoop_eq (vol : ℕ → Option ℚ) (tick : Option (ℚ × ℚ))
    (symbol base : String) (mc thr : ℚ) (hmc : mc ≠ 0) :
    ∀ (rem i : ℕ),
      Fifty.checkLoop vol tick symbol base mc thr i rem =
        ((List.range' i rem).find? (fun j => decide ((vol j).getD 0 / mc > thr))).map
          (fun j => mkResult symbol base mc ((vol j).getD 0) ((vol j).getD 0 / mc) tick) := by
  intro rem
  induction rem with
  | zero => intro i; simp [Fifty.checkLoop]
  | succ n ih =>
    intro i
    simp only [Fifty.checkLoop, if_neg hmc, List.range'_succ]
    by_cases hq : (vol i).getD 0 / mc > thr
    · rw [List.find?_cons_of_pos _ (by simpa using hq)]
      simp [hq]
    · rw [List.find?_cons_of_neg _ (by simpa using hq)]
      simp only [if_neg hq]
      exact ih (i + 1)

/-! Characterisation of the page-fetch loops. -/

theorem selfTime_fetchLoop_spec (fetch : ℕ → Option (List CGItem)) :
    ∀ (rem i : ℕ) (acc : MCDict),
      SelfTime.fetchLoop fetch i rem acc =
        (((List.range' i rem).takeWhile (fun p => okNonempty (fetch p))).foldl
            (fun d p => mergeItems d ((fetch p).getD [])) acc,
         (List.range' i rem).take
            (((List.range' i rem).takeWhile (fun p => okNonempty (fetch p))).length + 1)) := by
  intro rem
  induction rem with
  | zero => intro i acc; simp [SelfTime.fetchLoop]
  | succ n ih =>
    intro i acc
    rw [List.range'_succ]
    cases hf : fetch i with
    | none =>
      have hok : okNonempty none = false := rfl
      simp [SelfTime.fetchLoop, hf, List.takeWhile_cons, hok]
    | some items =>
      cases items with
      | nil =>
        have hok : okNonempty (some ([] : List CGItem)) = false := rfl
        simp [SelfTime.fetchLoop, hf, List.takeWhile_cons, hok]
      | cons it its =>
        have hok : okNonempty (some (it :: its)) = true := rfl
        simp only [SelfTime.fetchLoop, hf, List.takeWhile_cons, hok, if_true,
          List.foldl_cons, List.length_cons, List.take_succ_cons, Option.getD_some]
        rw [ih (i + 1) (mergeItems acc (it :: its))]

theorem binance_fetchLoop_requested (fetch : ℕ → Option (List CGItem)) :
    ∀ (rem i : ℕ) (acc : BDict),
      (Binance.fetchLoop fetch i rem acc).2 = List.range' i rem := by
  intro rem
  induction rem with
  | zero => intro i acc; simp [Binance.fetchLoop]
  | succ n ih =>
    intro i acc
    rw [List.range'_succ]
    simp only [Binance.fetchLoop]
    rw [ih]

theorem binance_fetchLoop_no_entries (fetch : ℕ → Option (List CGItem))
    (hf : ∀ p, fetch p = none ∨ fetch p = some []) :
    ∀ (rem i : ℕ) (acc : BDict), (Binance.fetchLoop fetch i rem acc).1 = acc := by
  intro rem
  induction rem with
  | zero => intro i acc; simp [Binance.fetchLoop]
  | succ n ih =>
    intro i acc
    simp only [Binance.fetchLoop]
    rcases hf i with h | h <;> rw [h] <;> simpa using ih (i + 1) acc


theorem eligibleMC_ne_zero (cg : MCDict) (s : String) (mc : ℚ)
    (h : SelfTime.eligibleMC cg s = some mc) : mc ≠ 0 := by
  simp only [SelfTime.eligibleMC] at h
  by_cases hex : deriveBase s = "BTC" ∨ deriveBase s = "ETH"
  · rw [if_pos hex] at h; exact absurd h (by simp)
  · rw [if_neg hex] at h
    cases hd : dget cg (deriveBase s) with
    | none => rw [hd] at h; exact absurd h (by simp)
    | some w =>
      simp only [hd] at h
      by_cases hw : w = 0
      · rw [if_pos hw] at h; exact absurd h (by simp)
      · rw [if_neg hw] at h
        injection h with h'
        subst h'
        exact hw

theorem collectResults_ok (cg : MCDict) (vol : String → ℕ → Option ℚ)
    (tick : String → Option (ℚ × ℚ)) (days : ℕ) (thr : ℚ) :
    ∀ symbols : List String,
      ∃ rs, SelfTime.collectResults cg vol tick days thr symbols = Except.ok rs := by
  intro symbols
  induction symbols with
  | nil => exact ⟨[], rfl⟩
  | cons s rest ih =>
    obtain ⟨rs, hrs⟩ := ih
    cases he : SelfTime.eligibleMC cg s with
    | none =>
      refine ⟨rs, ?_⟩
      simp only [SelfTime.collectResults, he]
      exact hrs
    | some mc =>
      have hmc := eligibleMC_ne_zero cg s mc he
      have hch := selfTime_checkLoop_eq (vol s) (tick s) s (deriveBase s) mc thr hmc days 0
      cases hfound : (List.range' 0 days).find?
          (fun j => decide ((vol s j).getD 0 / mc > thr)) with
      | none =>
        refine ⟨rs, ?_⟩
        simp only [SelfTime.collectResults, he, SelfTime.check_symbol_volume_ratio, hch,
          hfound, Option.map_none']
        exact hrs
      | some j =>
        refine ⟨mkResult s (deriveBase s) mc ((vol s j).getD 0) ((vol s j).getD 0 / mc)
          (tick s) :: rs, ?_⟩
        simp only [SelfTime.collectResults, he, SelfTime.check_symbol_volume_ratio, hch,
          hfound, Option.map_some']
        rw [hrs]

theorem removeUSDTAux_append (b : List Char)
    (h : ∀ p, p < b.length → usdtOccursAt (b ++ usdtChars) p = false) :
    removeUSDTAux (b ++ usdtChars) = b := by
  induction b with
  | nil => rfl
  | cons c b' ih =>
    have h0 := h 0 (by simp)
    have hcons : removeUSDTAux ((c :: b') ++ usdtChars) = c :: removeUSDTAux (b' ++ usdtChars) := by
      apply removeUSDTAux.eq_2
      intro rest1 hc hrest
      subst hc
      have hrest' : b' ++ usdtChars = 'S' :: 'D' :: 'T' :: rest1 := hrest
      have h0' : usdtChars.isPrefixOf ('U' :: (b' ++ usdtChars)) = false := by
        simpa [usdtOccursAt, List.cons_append] using h0
      rw [hrest'] at h0'
      simp [usdtChars, List.isPrefixOf] at h0'
    rw [hcons, ih]
    intro p hp
    have hp1 := h (p + 1) (by simpa using Nat.succ_lt_succ hp)
    rw [List.cons_append] at hp1
    simpa [usdtOccursAt] using hp1

theorem fifty_checkLoop_mc_zero (vol : ℕ → Option ℚ) (tick : Option (ℚ × ℚ))
    (symbol base : String) (thr : ℚ) :
    ∀ (rem i : ℕ), Fifty.checkLoop vol tick symbol base 0 thr i rem = none := by
  intro rem
  induction rem with
  | zero => intro i; rfl
  | succ n ih =>
    intro i
    simp only [Fifty.checkLoop, if_pos rfl]
    exact ih (i + 1)

theorem selfTime_fetchLoop_no_entries (fetch : ℕ → Option (List CGItem))
    (hf : ∀ p, fetch p = none ∨ fetch p = some []) :
    ∀ (rem i : ℕ) (acc : MCDict), (SelfTime.fetchLoop fetch i rem acc).1 = acc := by
  intro rem i acc
  cases rem with
  | zero => rfl
  | succ n => rcases hf i with h | h <;> simp [SelfTime.fetchLoop, h]


theorem dget_bMergeItems_mono (items : List CGItem) :
    ∀ (d : BDict) (k : String), (∃ w, dget d k = some w) →
      ∃ w, dget (items.foldl bMergeItem d) k = some w := by
  induction items with
  | nil => intro d k h; exact h
  | cons it rest ih =>
    intro d k h
    refine ih (bMergeItem d it) k ?_
    obtain ⟨w, hw⟩ := h
    rw [bMergeItem, dget_dput]
    by_cases hk : pyUpper it.symbol = k
    · exact ⟨it.market_cap, if_pos hk⟩
    · exact ⟨w, by rw [if_neg hk]; exact hw⟩

theorem dget_bMergeItems_mem (items : List CGItem) :
    ∀ (d : BDict) (it : CGItem), it ∈ items →
      ∃ w, dget (items.foldl bMergeItem d) (pyUpper it.symbol) = some w := by
  induction items with
  | nil => intro d it h; cases h
  | cons it' rest ih =>
    intro d it h
    rcases List.mem_cons.mp h with rfl | hmem
    · refine dget_bMergeItems_mono rest (bMergeItem d it) (pyUpper it.symbol) ?_
      exact ⟨it.market_cap, by rw [bMergeItem, dget_dput, if_pos rfl]⟩
    · exact ih (bMergeItem d it') it hmem

theorem binance_fetchLoop_mono (fetch : ℕ → Option (List CGItem)) :
    ∀ (rem i : ℕ) (acc : BDict) (k : String), (∃ w, dget acc k = some w) →
      ∃ w, dget (Binance.fetchLoop fetch i rem acc).1 k = some w := by
  intro rem
  induction rem with
  | zero => intro i acc k h; exact h
  | succ n ih =>
    intro i acc k h
    simp only [Binance.fetchLoop]
    cases hf : fetch i with
    | none => exact ih (i + 1) acc k h
    | some items =>
      exact ih (i + 1) (items.foldl bMergeItem acc) k (dget_bMergeItems_mono items acc k h)

theorem binance_fetchLoop_mem (fetch : ℕ → Option (List CGItem)) :
    ∀ (rem i : ℕ) (acc : BDict) (p : ℕ) (items : List CGItem) (it : CGItem),
      i ≤ p → p < i + rem → fetch p = some items → it ∈ items →
      ∃ w, dget (Binance.fetchLoop fetch i rem acc).1 (pyUpper it.symbol) = some w := by
  intro rem
  induction rem with
  | zero => intro i acc p items it h1 h2; omega
  | succ n ih =>
    intro i acc p items it h1 h2 hf hit
    simp only [Binance.fetchLoop]
    by_cases hp : p = i
    · subst hp
      rw [hf]
      exact binance_fetchLoop_mono fetch n (p + 1) (items.foldl bMergeItem acc)
        (pyUpper it.symbol) (dget_bMergeItems_mem items acc it hit)
    · cases hf' : fetch i with
      | none => exact ih (i + 1) acc p items it (by omega) (by omega) hf hit
      | some items' =>
        exact ih (i + 1) (items'.foldl bMergeItem acc) p items it (by omega) (by omega) hf hit

end FreqConf

/-- C7, counterexample: `self_time.py`'s `_check_symbol_volume_ratio` has no
zero-market-cap guard, so with a zero market cap the very first scanned day
raises `ZeroDivisionError` — the ratio computation is performed, not skipped. -/
theorem claim_C7_counterexample :
    FreqConf.SelfTime.check_symbol_volume_ratio (fun _ => some 5) none "AUSDT" "A" 0 1 (7/10)
      = Except.error () := rfl

/-- C7, amended: only the `self_time_50bilile.py` variant defensively skips a
zero market cap (its scan of any window returns no result rather than
dividing); the `self_time.py` scan divides unconditionally and raises on a
zero market cap, but its full screener never does so because the eligibility
filter never passes a zero market cap to the scan (the pipeline always
returns a result list rather than propagating a `ZeroDivisionError`). -/
theorem claim_C7_amended :
    (∀ (vol : ℕ → Option ℚ) (tick : Option (ℚ × ℚ)) (symbol base : String) (days : ℕ) (thr : ℚ),
        FreqConf.Fifty.check_symbol_volume_ratio vol tick symbol base 0 days thr = none)
    ∧ (∀ (symbols : List String) (cg : FreqConf.MCDict) (vol : String → ℕ → Option ℚ)
        (tick : String → Option (ℚ × ℚ)) (days : ℕ) (thr : ℚ) (limit : ℕ),
        ∃ out, FreqConf.SelfTime.get_high_volume_to_marketcap_contracts
          symbols cg vol tick days thr limit = Except.ok out) := by
  constructor
  · intro vol tick symbol base days thr
    exact FreqConf.fifty_checkLoop_mc_zero vol tick symbol base thr days 0
  · intro symbols cg vol tick days thr limit
    obtain ⟨rs, hrs⟩ := FreqConf.collectResults_ok cg vol tick days thr symbols
    refine ⟨(FreqConf.sortDesc rs).take limit, ?_⟩
    simp [FreqConf.SelfTime.get_high_volume_to_marketcap_contracts, hrs]

/-- C3: in both day-scanning variants, given an eligible (nonzero) market cap
the scan over offsets `0 .. days-1` returns exactly the result of the first
(most recent) offset whose ratio strictly exceeds the threshold, with a
failed per-day fetch (`vol i = none`) contributing a volume of `0`; with no
qualifying offset it returns no result. -/
theorem claim_C3_theorem (vol : ℕ → Option ℚ) (tick : Option (ℚ × ℚ))
    (symbol base : String) (mc : ℚ) (days : ℕ) (thr : ℚ) (hmc : mc ≠ 0) :
    FreqConf.SelfTime.check_symbol_volume_ratio vol tick symbol base mc days thr =
      Except.ok ((FreqConf.specFirstQualifying vol mc thr days).map
        (fun i => FreqConf.mkResult symbol base mc ((vol i).getD 0) ((vol i).getD 0 / mc) tick))
    ∧ FreqConf.Fifty.check_symbol_volume_ratio vol tick symbol base mc days thr =
      (FreqConf.specFirstQualifying vol mc thr days).map
        (fun i => FreqConf.mkResult symbol base mc ((vol i).getD 0) ((vol i).getD 0 / mc) tick) := by
  constructor
  · rw [FreqConf.SelfTime.check_symbol_volume_ratio,
      FreqConf.selfTime_checkLoop_eq vol tick symbol base mc thr hmc days 0,
      FreqConf.specFirstQualifying, List.range_eq_range']
  · rw [FreqConf.Fifty.check_symbol_volume_ratio,
      FreqConf.fifty_checkLoop_eq vol tick symbol base mc thr hmc days 0,
      FreqConf.specFirstQualifying, List.range_eq_range']

/-- C3, witness: a two-day window where the most recent day's fetch fails
(treated as volume `0`, not qualifying) and the older day qualifies. -/
theorem claim_C3_witness :
    FreqConf.SelfTime.check_symbol_volume_ratio (fun i => if i = 0 then none else some 8)
        (some (2, 3)) "AUSDT" "A" 4 2 1 =
      Except.ok ((FreqConf.specFirstQualifying (fun i => if i = 0 then none else some 8) 4 1 2).map
        (fun i => FreqConf.mkResult "AUSDT" "A" 4
          (((fun i => if i = 0 then none else some 8) i).getD 0)
          (((fun i => if i = 0 then none else some 8) i).getD 0 / 4) (some (2, 3))))
    ∧ FreqConf.Fifty.check_symbol_volume_ratio (fun i => if i = 0 then none else some 8)
        (some (2, 3)) "AUSDT" "A" 4 2 1 =
      (FreqConf.specFirstQualifying (fun i => if i = 0 then none else some 8) 4 1 2).map
        (fun i => FreqConf.mkResult "AUSDT" "A" 4
          (((fun i => if i = 0 then none else some 8) i).getD 0)
          (((fun i => if i = 0 then none else some 8) i).getD 0 / 4) (some (2, 3))) :=
  claim_C3_theorem (fun i => if i = 0 then none else some 8) (some (2, 3)) "AUSDT" "A" 4 2 1
    (by norm_num)

/-- C1, counterexample: in the `binance.py` screener the comparison is
`ratio >= threshold`, so a contract whose ratio is exactly the threshold
(here `700 / 1000 = 0.7`) does appear in the results. -/
theorem claim_C1_counterexample :
    FreqConf.Binance.get_high_volume_to_marketcap_contracts
        [{ symbol := "AUSDT", quoteVolume := 700, lastPrice := 3, priceChangePercent := 5 }]
        [("A", some 1000)] (7/10) 200 =
      [{ symbol := "AUSDT", volume_usdt := 700, market_cap := 1000, ratio := 7/10,
         price := 3, change := 5, tag := "A/USDT:USDT" }] := by
  norm_num [FreqConf.Binance.get_high_volume_to_marketcap_contracts, FreqConf.Binance.consider,
    (by decide : FreqConf.deriveBase "AUSDT" = "A"),
    (by decide : FreqConf.endsWithUSDT "AUSDT" = true),
    (by decide : "A" ++ "/USDT:USDT" = "A/USDT:USDT"),
    FreqConf.dget, FreqConf.sortDesc, FreqConf.insertDesc, List.filterMap]

/-- C1, amended: the comparison is strict (`>`) in the two day-scanning
variants — a window in which every day's ratio is at most the threshold
(equality included) yields no result — while `binance.py` compares with
`>=`: a contract passing the other filters with ratio at least the threshold
(equality included) is kept. -/
theorem claim_C1_amended :
    (∀ (vol : ℕ → Option ℚ) (tick : Option (ℚ × ℚ)) (symbol base : String)
        (mc : ℚ) (days : ℕ) (thr : ℚ), mc ≠ 0 →
        (∀ i, i < days → (vol i).getD 0 / mc ≤ thr) →
        FreqConf.SelfTime.check_symbol_volume_ratio vol tick symbol base mc days thr =
          Except.ok none)
    ∧ (∀ (vol : ℕ → Option ℚ) (tick : Option (ℚ × ℚ)) (symbol base : String)
        (mc : ℚ) (days : ℕ) (thr : ℚ), mc ≠ 0 →
        (∀ i, i < days → (vol i).getD 0 / mc ≤ thr) →
        FreqConf.Fifty.check_symbol_volume_ratio vol tick symbol base mc days thr = none)
    ∧ (∀ (cg : FreqConf.BDict) (thr : ℚ) (c : FreqConf.Contract24h) (mc : ℚ),
        FreqConf.endsWithUSDT c.symbol = true →
        ¬(FreqConf.deriveBase c.symbol = "BTC" ∨ FreqConf.deriveBase c.symbol = "ETH") →
        FreqConf.dget cg (FreqConf.deriveBase c.symbol) = some (some mc) → mc ≠ 0 →
        c.quoteVolume / mc ≥ thr →
        FreqConf.Binance.consider cg thr c =
          some { symbol := c.symbol
                 volume_usdt := c.quoteVolume
                 market_cap := mc
                 ratio := c.quoteVolume / mc
                 price := c.lastPrice
                 change := c.priceChangePercent
                 tag := FreqConf.deriveBase c.symbol ++ "/USDT:USDT" }) := by
  have hfind : ∀ (vol : ℕ → Option ℚ) (mc : ℚ) (days : ℕ) (thr : ℚ),
      (∀ i, i < days → (vol i).getD 0 / mc ≤ thr) →
      (List.range' 0 days).find? (fun j => decide ((vol j).getD 0 / mc > thr)) = none := by
    intro vol mc days thr hle
    rw [List.find?_eq_none]
    intro i hi
    simp only [decide_eq_true_eq, not_lt]
    exact hle i (by simpa using List.mem_range'_1.mp hi)
  refine ⟨?_, ?_, ?_⟩
  · intro vol tick symbol base mc days thr hmc hle
    rw [FreqConf.SelfTime.check_symbol_volume_ratio,
      FreqConf.selfTime_checkLoop_eq vol tick symbol base mc thr hmc days 0,
      hfind vol mc days thr hle]
    rfl
  · intro vol tick symbol base mc days thr hmc hle
    rw [FreqConf.Fifty.check_symbol_volume_ratio,
      FreqConf.fifty_checkLoop_eq vol tick symbol base mc thr hmc days 0,
      hfind vol mc days thr hle]
    rfl
  · intro cg thr c mc hend hexcl hget hmc hge
    simp only [FreqConf.Binance.consider, hend, hget]
    rw [if_neg (by simp), if_neg hexcl, if_neg hmc, if_pos hge]

/-- C1, witness: with market cap `10`, threshold `7/10` and every scanned
volume `7` (ratio exactly the threshold) both day-scanning variants return
no result, while `binance.py`'s per-contract decision keeps a contract whose
ratio is exactly the threshold. -/
theorem claim_C1_witness :
    FreqConf.SelfTime.check_symbol_volume_ratio (fun _ => some 7) none "AUSDT" "A" 10 1 (7/10) =
      Except.ok none
    ∧ FreqConf.Fifty.check_symbol_volume_ratio (fun _ => some 7) none "AUSDT" "A" 10 1 (7/10) =
      none
    ∧ FreqConf.Binance.consider [("A", some 1000)] (7/10)
        { symbol := "AUSDT", quoteVolume := 700, lastPrice := 3, priceChangePercent := 5 } =
      some { symbol := "AUSDT", volume_usdt := 700, market_cap := 1000, ratio := 700 / 1000,
             price := 3, change := 5, tag := FreqConf.deriveBase "AUSDT" ++ "/USDT:USDT" } := by
  refine ⟨?_, ?_, ?_⟩
  · exact claim_C1_amended.1 (fun _ => some 7) none "AUSDT" "A" 10 1 (7/10) (by norm_num)
      (fun i _ => by norm_num)
  · exact claim_C1_amended.2.1 (fun _ => some 7) none "AUSDT" "A" 10 1 (7/10) (by norm_num)
      (fun i _ => by norm_num)
  · exact claim_C1_amended.2.2 [("A", some 1000)] (7/10)
      { symbol := "AUSDT", quoteVolume := 700, lastPrice := 3, priceChangePercent := 5 } 1000
      (by decide) (by decide) (by decide) (by norm_num) (by norm_num)

/-- C6: whenever the `self_time.py` screener returns a list (and always for
the `binance.py` screener), that list is sorted by ratio in non-increasing
order and its length never exceeds the configured limit, for every input
configuration and every set of per-symbol fetch outcomes. -/
theorem claim_C6_theorem :
    (∀ (symbols : List String) (cg : FreqConf.MCDict) (vol : String → ℕ → Option ℚ)
        (tick : String → Option (ℚ × ℚ)) (days : ℕ) (thr : ℚ) (limit : ℕ)
        (out : List FreqConf.ScreenResult),
        FreqConf.SelfTime.get_high_volume_to_marketcap_contracts
            symbols cg vol tick days thr limit = Except.ok out →
        out.Pairwise (fun a b => b.ratio ≤ a.ratio) ∧ out.length ≤ limit)
    ∧ (∀ (contracts : List FreqConf.Contract24h) (cg : FreqConf.BDict) (thr : ℚ) (limit : ℕ),
        (FreqConf.Binance.get_high_volume_to_marketcap_contracts contracts cg thr limit).Pairwise
          (fun a b => b.ratio ≤ a.ratio)
        ∧ (FreqConf.Binance.get_high_volume_to_marketcap_contracts
            contracts cg thr limit).length ≤ limit) := by
  constructor
  · intro symbols cg vol tick days thr limit out h
    simp only [FreqConf.SelfTime.get_high_volume_to_marketcap_contracts] at h
    cases hc : FreqConf.SelfTime.collectResults cg vol tick days thr symbols with
    | error e => rw [hc] at h; cases h
    | ok rs =>
      rw [hc] at h
      injection h with h'
      subst h'
      constructor
      · exact List.Pairwise.sublist (List.take_sublist _ _) (FreqConf.sorted_sortDesc rs)
      · rw [List.length_take]
        exact min_le_left _ _
  · intro contracts cg thr limit
    constructor
    · exact List.Pairwise.sublist (List.take_sublist _ _) (FreqConf.sorted_sortDesc _)
    · rw [FreqConf.Binance.get_high_volume_to_marketcap_contracts, List.length_take]
      exact min_le_left _ _

/-- C6, witness: the screener run on a concrete two-symbol catalog returns a
single-result list, which is sorted and within the limit. -/
theorem claim_C6_witness :
    ([{ symbol := "AUSDT", volume_usdt := 60, market_cap := 100, ratio := 3/5,
        price := 1, change := 2, tag := "A/USDT:USDT" }] :
      List FreqConf.ScreenResult).Pairwise (fun a b => b.ratio ≤ a.ratio)
    ∧ ([{ symbol := "AUSDT", volume_usdt := 60, market_cap := 100, ratio := 3/5,
          price := 1, change := 2, tag := "A/USDT:USDT" }] :
        List FreqConf.ScreenResult).length ≤ 10 :=
  claim_C6_theorem.1 ["AUSDT", "BUSDT"] [("A", 100), ("B", 200)]
    (fun s _ => if s = "AUSDT" then some 60 else some 90) (fun _ => some (1, 2)) 1 (1/2) 10
    [{ symbol := "AUSDT", volume_usdt := 60, market_cap := 100, ratio := 3/5,
       price := 1, change := 2, tag := "A/USDT:USDT" }]
    (by
      simp +decide only [FreqConf.SelfTime.get_high_volume_to_marketcap_contracts,
        FreqConf.SelfTime.collectResults, FreqConf.SelfTime.eligibleMC,
        FreqConf.SelfTime.check_symbol_volume_ratio, FreqConf.SelfTime.checkLoop,
        (by decide : FreqConf.deriveBase "AUSDT" = "A"),
        (by decide : FreqConf.deriveBase "BUSDT" = "B"),
        (by decide : "A" ++ "/USDT:USDT" = "A/USDT:USDT"),
        (by decide : "B" ++ "/USDT:USDT" = "B/USDT:USDT"),
        FreqConf.sortDesc, FreqConf.insertDesc, FreqConf.pyDiv, FreqConf.mkResult,
        FreqConf.dget]
      norm_num [FreqConf.sortDesc, FreqConf.insertDesc])

/-- C2, counterexample: in `self_time.py`, with an expired cache file holding
`{"BTC": 5}` and a refetch that yields zero entries, the call returns the
empty mapping (not the stale one) and overwrites the cache file with an
empty snapshot. -/
theorem claim_C2_counterexample :
    FreqConf.SelfTime.get_coingecko_market_caps (some ⟨0, [("BTC", 5)]⟩) 1000000
        (fun _ => none) 7 604800 = ([], some ⟨1000000, []⟩, [1])
    ∧ (FreqConf.SelfTime.get_coingecko_market_caps (some ⟨0, [("BTC", 5)]⟩) 1000000
        (fun _ => none) 7 604800).1 ≠ [("BTC", (5 : ℚ))]
    ∧ (FreqConf.SelfTime.get_coingecko_market_caps (some ⟨0, [("BTC", 5)]⟩) 1000000
        (fun _ => none) 7 604800).2.1 ≠ some ⟨0, [("BTC", 5)]⟩ := by
  have h : FreqConf.SelfTime.get_coingecko_market_caps (some ⟨0, [("BTC", 5)]⟩) 1000000
      (fun _ => none) 7 604800 = ([], some ⟨1000000, []⟩, [1]) := by
    norm_num [FreqConf.SelfTime.get_coingecko_market_caps, FreqConf.SelfTime.fetchLoop]
  refine ⟨h, ?_, ?_⟩ <;> rw [h] <;> decide

/-- C2, amended: the stale-cache fallback is a `binance.py` behaviour: there,
whenever the refetch yields zero entries the existing cache file's mapping is
returned verbatim and the file is left unchanged (whatever its age), and with
no cache file an empty mapping is returned rather than an exception.  In the
`self_time` variants a cache miss whose refetch yields zero entries instead
returns the empty mapping and overwrites the cache file with an empty
snapshot. -/
theorem claim_C2_amended :
    (∀ (st : Option FreqConf.BCacheFile) (now : ℚ) (fetch : ℕ → Option (List FreqConf.CGItem))
        (pages : ℕ) (ttl : ℚ), (∀ p, fetch p = none ∨ fetch p = some []) →
        (FreqConf.Binance.get_coingecko_market_caps st now fetch pages ttl).1 =
          (match st with | some f => f.data | none => []) ∧
        (FreqConf.Binance.get_coingecko_market_caps st now fetch pages ttl).2.1 = st)
    ∧ (∀ (st : Option FreqConf.CacheFile) (now : ℚ) (fetch : ℕ → Option (List FreqConf.CGItem))
        (pages : ℕ) (ttl : ℚ), (∀ p, fetch p = none ∨ fetch p = some []) →
        FreqConf.selfCacheHit st now ttl = false →
        (FreqConf.SelfTime.get_coingecko_market_caps st now fetch pages ttl).1 = [] ∧
        (FreqConf.SelfTime.get_coingecko_market_caps st now fetch pages ttl).2.1 =
          some ⟨now, []⟩) := by
  constructor
  · intro st now fetch pages ttl hf
    have hempty := FreqConf.binance_fetchLoop_no_entries fetch hf pages 1 []
    cases st with
    | none =>
      simp only [FreqConf.Binance.get_coingecko_market_caps, hempty, if_pos rfl]
      exact ⟨by trivial, by trivial⟩
    | some f =>
      by_cases hhit : now - f.mtime < ttl
      · simp only [FreqConf.Binance.get_coingecko_market_caps, if_pos hhit]
        exact ⟨by trivial, by trivial⟩
      · simp only [FreqConf.Binance.get_coingecko_market_caps, if_neg hhit, hempty, if_pos rfl]
        exact ⟨by trivial, by trivial⟩
  · intro st now fetch pages ttl hf hmiss
    have hempty := FreqConf.selfTime_fetchLoop_no_entries fetch hf pages 1 []
    cases st with
    | none =>
      simp only [FreqConf.SelfTime.get_coingecko_market_caps, hempty]
      exact ⟨by trivial, by trivial⟩
    | some f =>
      have hmiss' : ¬(now - f.timestamp < ttl) := by
        simpa [FreqConf.selfCacheHit] using hmiss
      simp only [FreqConf.SelfTime.get_coingecko_market_caps, if_neg hmiss', hempty]
      exact ⟨by trivial, by trivial⟩

/-- C2, witness: `binance.py` with an expired cache holding `{"X": 3}` and a
refetch that raises on every page returns the stale mapping and leaves the
cache state unchanged; `self_time.py` with no cache file returns the empty
mapping and writes an empty snapshot. -/
theorem claim_C2_witness :
    (FreqConf.Binance.get_coingecko_market_caps (some ⟨0, [("X", some 3)]⟩) 10
        (fun _ => none) 7 5).1 = [("X", some 3)]
    ∧ (FreqConf.Binance.get_coingecko_market_caps (some ⟨0, [("X", some 3)]⟩) 10
        (fun _ => none) 7 5).2.1 = some ⟨0, [("X", some 3)]⟩
    ∧ (FreqConf.SelfTime.get_coingecko_market_caps none 0 (fun _ => none) 7 100).1 = []
    ∧ (FreqConf.SelfTime.get_coingecko_market_caps none 0 (fun _ => none) 7 100).2.1 =
      some ⟨0, []⟩ := by
  have hb := claim_C2_amended.1 (some ⟨0, [("X", some 3)]⟩) 10 (fun _ => none) 7 5
    (fun p => Or.inl rfl)
  have hs := claim_C2_amended.2 none 0 (fun _ => none) 7 100 (fun p => Or.inl rfl) rfl
  exact ⟨hb.1, hb.2, hs.1, hs.2⟩

/-- C4, counterexample: `binance.py` stores fetched entries without any
filtering, so a coin reported with market cap `0` appears in the produced
mapping with value `0`. -/
theorem claim_C4_counterexample :
    FreqConf.dget (FreqConf.Binance.get_coingecko_market_caps none 0
        (fun _ => some [⟨"abc", some 0⟩]) 1 100).1 "ABC" = some (some 0) := by
  decide

/-- C4, amended: in the `self_time` variants every lookup-reachable binding of
a freshly fetched mapping has an upper-case key and a nonzero value (zero and
missing market caps are filtered out before storage), the full
cache-consulting call preserves this invariant (so it also holds for
cache-loaded mappings written by this code), and the values are non-negative
whenever the upstream-reported market caps are; the `binance.py` variant
stores entries unfiltered. -/
theorem claim_C4_amended :
    (∀ (fetch : ℕ → Option (List FreqConf.CGItem)) (pages : ℕ),
        FreqConf.GoodDict (FreqConf.SelfTime.fetchLoop fetch 1 pages []).1)
    ∧ (∀ (st : Option FreqConf.CacheFile) (now : ℚ)
        (fetch : ℕ → Option (List FreqConf.CGItem)) (pages : ℕ) (ttl : ℚ),
        FreqConf.GoodState st →
        FreqConf.GoodDict (FreqConf.SelfTime.get_coingecko_market_caps st now fetch pages ttl).1
        ∧ FreqConf.GoodState
            (FreqConf.SelfTime.get_coingecko_market_caps st now fetch pages ttl).2.1)
    ∧ (∀ (fetch : ℕ → Option (List FreqConf.CGItem)) (pages : ℕ),
        (∀ p items it v, fetch p = some items → it ∈ items → it.market_cap = some v → 0 ≤ v) →
        ∀ k v, FreqConf.dget (FreqConf.SelfTime.fetchLoop fetch 1 pages []).1 k = some v →
          0 ≤ v) := by
  have hloop : ∀ (fetch : ℕ → Option (List FreqConf.CGItem)) (pages : ℕ),
      FreqConf.GoodDict (FreqConf.SelfTime.fetchLoop fetch 1 pages []).1 := by
    intro fetch pages k v h
    rcases FreqConf.dget_selfTime_fetchLoop fetch pages 1 [] k v h with
      h' | ⟨p, items, it, hf, hmem, hsym, hmc, hv, hk⟩
    · simp [FreqConf.dget] at h'
    · exact ⟨hk ▸ FreqConf.isUpperStr_pyUpper it.symbol, hv⟩
  refine ⟨hloop, ?_, ?_⟩
  · intro st now fetch pages ttl hst
    cases st with
    | none =>
      simp only [FreqConf.SelfTime.get_coingecko_market_caps]
      exact ⟨hloop fetch pages, hloop fetch pages⟩
    | some f =>
      by_cases hhit : now - f.timestamp < ttl
      · simp only [FreqConf.SelfTime.get_coingecko_market_caps, if_pos hhit]
        exact ⟨hst, hst⟩
      · simp only [FreqConf.SelfTime.get_coingecko_market_caps, if_neg hhit]
        exact ⟨hloop fetch pages, hloop fetch pages⟩
  · intro fetch pages hnn k v h
    rcases FreqConf.dget_selfTime_fetchLoop fetch pages 1 [] k v h with
      h' | ⟨p, items, it, hf, hmem, hsym, hmc, hv, hk⟩
    · simp [FreqConf.dget] at h'
    · exact hnn p items it v hf hmem hmc

/-- C4, witness: a fetch returning one lower-case coin with market cap `5`
produces an upper-case key bound to the nonzero value `5`. -/
theorem claim_C4_witness :
    FreqConf.isUpperStr "ABC" ∧ (5 : ℚ) ≠ 0 := by
  have h := claim_C4_amended.2.1 none 0 (fun _ => some [⟨"abc", some 5⟩]) 1 100 trivial
  exact h.1 "ABC" 5 (by decide)

/-- C5, counterexample: `binance.py` does not stop at a failed page: with a
two-page budget where page 1 raises and page 2 returns an entry, the cache
miss still requests page 2 and merges its entry into the returned mapping. -/
theorem claim_C5_counterexample :
    (FreqConf.Binance.get_coingecko_market_caps none 0
        (fun p => if p = 1 then none else some [⟨"abc", some 5⟩]) 2 100).2.2 = [1, 2]
    ∧ FreqConf.dget (FreqConf.Binance.get_coingecko_market_caps none 0
        (fun p => if p = 1 then none else some [⟨"abc", some 5⟩]) 2 100).1 "ABC" =
      some (some 5) := by
  decide

/-- C5, amended: on a cache miss — no cache file, or an existing one whose
age is past the TTL — the `self_time` variants fetch pages in ascending
order, stopping after the first page that raises or returns no entries, and
merge exactly the pages of the successful run before the stop; the
`binance.py` variant instead always requests its entire page budget in
ascending order, continuing past failed or empty pages, and every entry of
every successful page ends up (upper-cased) bound in the returned mapping. -/
theorem claim_C5_amended :
    (∀ (st : Option FreqConf.CacheFile) (now : ℚ)
        (fetch : ℕ → Option (List FreqConf.CGItem)) (pages : ℕ) (ttl : ℚ),
        FreqConf.selfCacheHit st now ttl = false →
        FreqConf.SelfTime.get_coingecko_market_caps st now fetch pages ttl =
          (FreqConf.specMerged fetch pages,
           some ⟨now, FreqConf.specMerged fetch pages⟩,
           FreqConf.specRequested fetch pages))
    ∧ (∀ (st : Option FreqConf.BCacheFile) (now : ℚ)
        (fetch : ℕ → Option (List FreqConf.CGItem)) (pages : ℕ) (ttl : ℚ),
        FreqConf.bCacheHit st now ttl = false →
        (FreqConf.Binance.get_coingecko_market_caps st now fetch pages ttl).2.2 =
          List.range' 1 pages
        ∧ (∀ (p : ℕ) (items : List FreqConf.CGItem) (it : FreqConf.CGItem),
            1 ≤ p → p ≤ pages → fetch p = some items → it ∈ items →
            ∃ w, FreqConf.dget
              (FreqConf.Binance.get_coingecko_market_caps st now fetch pages ttl).1
              (FreqConf.pyUpper it.symbol) = some w)) := by
  constructor
  · intro st now fetch pages ttl hmiss
    cases st with
    | none =>
      simp only [FreqConf.SelfTime.get_coingecko_market_caps,
        FreqConf.selfTime_fetchLoop_spec fetch pages 1 []]
      rfl
    | some f =>
      have hmiss' : ¬(now - f.timestamp < ttl) := by
        simpa [FreqConf.selfCacheHit] using hmiss
      simp only [FreqConf.SelfTime.get_coingecko_market_caps, if_neg hmiss',
        FreqConf.selfTime_fetchLoop_spec fetch pages 1 []]
      rfl
  · intro st now fetch pages ttl hmiss
    have hkey : ∀ (p : ℕ) (items : List FreqConf.CGItem) (it : FreqConf.CGItem),
        1 ≤ p → p ≤ pages → fetch p = some items → it ∈ items →
        ∃ w, FreqConf.dget (FreqConf.Binance.fetchLoop fetch 1 pages []).1
          (FreqConf.pyUpper it.symbol) = some w := by
      intro p items it h1 h2 hf hit
      exact FreqConf.binance_fetchLoop_mem fetch pages 1 [] p items it h1 (by omega) hf hit
    have hreq := FreqConf.binance_fetchLoop_requested fetch pages 1 []
    cases st with
    | none =>
      simp only [FreqConf.Binance.get_coingecko_market_caps]
      by_cases hm : (FreqConf.Binance.fetchLoop fetch 1 pages []).1 = []
      · rw [if_pos hm]
        refine ⟨hreq, fun p items it h1 h2 hf hit => ?_⟩
        obtain ⟨w, hw⟩ := hkey p items it h1 h2 hf hit
        rw [hm] at hw
        simp [FreqConf.dget] at hw
      · rw [if_neg hm]
        exact ⟨hreq, fun p items it h1 h2 hf hit => hkey p items it h1 h2 hf hit⟩
    | some f =>
      have hmiss' : ¬(now - f.mtime < ttl) := by
        simpa [FreqConf.bCacheHit] using hmiss
      simp only [FreqConf.Binance.get_coingecko_market_caps, if_neg hmiss']
      by_cases hm : (FreqConf.Binance.fetchLoop fetch 1 pages []).1 = []
      · rw [if_pos hm]
        refine ⟨hreq, fun p items it h1 h2 hf hit => ?_⟩
        obtain ⟨w, hw⟩ := hkey p items it h1 h2 hf hit
        rw [hm] at hw
        simp [FreqConf.dget] at hw
      · rw [if_neg hm]
        exact ⟨hreq, fun p items it h1 h2 hf hit => hkey p items it h1 h2 hf hit⟩

/-- C5, witness: a `self_time` call on an expired cache file follows the
stop-early protocol, and a `binance.py` call on an expired cache file with a
failing page 1 and a successful page 2 still requests both pages and has
page 2's entry bound in its returned mapping. -/
theorem claim_C5_witness :
    FreqConf.SelfTime.get_coingecko_market_caps (some ⟨0, [("OLD", 1)]⟩) 1000000
        (fun p => if p = 1 then some [⟨"btc", some 5⟩] else none) 2 604800 =
      (FreqConf.specMerged (fun p => if p = 1 then some [⟨"btc", some 5⟩] else none) 2,
       some ⟨1000000,
         FreqConf.specMerged (fun p => if p = 1 then some [⟨"btc", some 5⟩] else none) 2⟩,
       FreqConf.specRequested (fun p => if p = 1 then some [⟨"btc", some 5⟩] else none) 2)
    ∧ (FreqConf.Binance.get_coingecko_market_caps (some ⟨0, [("OLD", some 1)]⟩) 10
        (fun p => if p = 1 then none else some [⟨"abc", some 5⟩]) 2 5).2.2 = List.range' 1 2
    ∧ ∃ w, FreqConf.dget (FreqConf.Binance.get_coingecko_market_caps
          (some ⟨0, [("OLD", some 1)]⟩) 10
          (fun p => if p = 1 then none else some [⟨"abc", some 5⟩]) 2 5).1
        (FreqConf.pyUpper "abc") = some w := by
  have hb := claim_C5_amended.2 (some ⟨0, [("OLD", some 1)]⟩) 10
    (fun p => if p = 1 then none else some [⟨"abc", some 5⟩]) 2 5
    (by norm_num [FreqConf.bCacheHit, decide_eq_false_iff_not])
  refine ⟨?_, hb.1, ?_⟩
  · exact claim_C5_amended.1 (some ⟨0, [("OLD", 1)]⟩) 1000000
      (fun p => if p = 1 then some [⟨"btc", some 5⟩] else none) 2 604800
      (by norm_num [FreqConf.selfCacheHit, decide_eq_false_iff_not])
  · exact hb.2 2 [⟨"abc", some 5⟩] ⟨"abc", some 5⟩ (by norm_num) (by norm_num)
      (by norm_num) (by simp)

/-- C8: after a call that missed the cache and persisted its fetched snapshot
at time `t0`, a second call at any time `t1` within the TTL window performs
zero network requests, returns the same mapping the first call returned, and
leaves the cache state unchanged. -/
theorem claim_C8_theorem (st0 : Option FreqConf.CacheFile) (t0 t1 ttl : ℚ)
    (fetch : ℕ → Option (List FreqConf.CGItem)) (pages : ℕ)
    (hmiss : FreqConf.selfCacheHit st0 t0 ttl = false) (hwin : t1 - t0 < ttl) :
    FreqConf.SelfTime.get_coingecko_market_caps
        (FreqConf.SelfTime.get_coingecko_market_caps st0 t0 fetch pages ttl).2.1
        t1 fetch pages ttl =
      ((FreqConf.SelfTime.get_coingecko_market_caps st0 t0 fetch pages ttl).1,
       (FreqConf.SelfTime.get_coingecko_market_caps st0 t0 fetch pages ttl).2.1, []) := by
  cases st0 with
  | none =>
    simp only [FreqConf.SelfTime.get_coingecko_market_caps]
    rw [if_pos hwin]
  | some f =>
    have hmiss' : ¬(t0 - f.timestamp < ttl) := by
      simpa [FreqConf.selfCacheHit] using hmiss
    simp only [FreqConf.SelfTime.get_coingecko_market_caps, if_neg hmiss']
    rw [if_pos hwin]

/-- C8, witness: a concrete miss-then-hit pair of calls. -/
theorem claim_C8_witness :
    FreqConf.SelfTime.get_coingecko_market_caps
        (FreqConf.SelfTime.get_coingecko_market_caps none 0
          (fun _ => some [⟨"btc", some 5⟩]) 1 100).2.1 1 (fun _ => some [⟨"btc", some 5⟩]) 1 100 =
      ((FreqConf.SelfTime.get_coingecko_market_caps none 0
          (fun _ => some [⟨"btc", some 5⟩]) 1 100).1,
       (FreqConf.SelfTime.get_coingecko_market_caps none 0
          (fun _ => some [⟨"btc", some 5⟩]) 1 100).2.1, []) :=
  claim_C8_theorem none 0 1 100 (fun _ => some [⟨"btc", some 5⟩]) 1 rfl (by norm_num)

/-- C9, counterexample: the screeners derive the base ticker with
`symbol.replace("USDT", "")`, which removes every occurrence of `"USDT"`,
not just the trailing suffix: for the symbol `"USDTUSDT"` (which ends in
`"USDT"`) the derived base is `""`, not the suffix-stripped `"USDT"`. -/
theorem claim_C9_counterexample :
    FreqConf.endsWithUSDT "USDTUSDT" = true
    ∧ FreqConf.deriveBase "USDTUSDT" ≠ FreqConf.specBaseTicker "USDTUSDT" := by
  decide

/-- C9, amended: the derived base ticker equals the symbol with every
occurrence of `"USDT"` removed and the result upper-cased; whenever `"USDT"`
occurs in the symbol only as the trailing suffix, this coincides with the
spec's suffix-stripped-and-upper-cased base ticker. -/
theorem claim_C9_amended (b : List Char)
    (h : ∀ p, p < b.length → FreqConf.usdtOccursAt (b ++ FreqConf.usdtChars) p = false) :
    FreqConf.deriveBase ⟨b ++ FreqConf.usdtChars⟩ = FreqConf.pyUpper ⟨b⟩
    ∧ FreqConf.specBaseTicker ⟨b ++ FreqConf.usdtChars⟩ = FreqConf.pyUpper ⟨b⟩ := by
  constructor
  · unfold FreqConf.deriveBase FreqConf.pyReplaceUSDT
    rw [show (⟨b ++ FreqConf.usdtChars⟩ : String).data = b ++ FreqConf.usdtChars from rfl,
      FreqConf.removeUSDTAux_append b h]
  · unfold FreqConf.specBaseTicker
    have hlen : (b ++ FreqConf.usdtChars).length - 4 = b.length := by
      simp [FreqConf.usdtChars]
    rw [show (⟨b ++ FreqConf.usdtChars⟩ : String).data = b ++ FreqConf.usdtChars from rfl,
      hlen, List.take_left]

/-- C9, witness: for `"BTCUSDT"` (stem `"BTC"`, suffix occurring only at the
end) the derived base and the spec's base ticker agree. -/
theorem claim_C9_witness :
    FreqConf.deriveBase ⟨['B', 'T', 'C'] ++ FreqConf.usdtChars⟩ =
      FreqConf.pyUpper ⟨['B', 'T', 'C']⟩
    ∧ FreqConf.specBaseTicker ⟨['B', 'T', 'C'] ++ FreqConf.usdtChars⟩ =
      FreqConf.pyUpper ⟨['B', 'T', 'C']⟩ :=
  claim_C9_amended ['B', 'T', 'C'] (by decide)

/-- C10, counterexample: `get_daily_volume` converts the parsed naive date
with `datetime.timestamp()`, which interprets it in the machine's local
timezone: on a machine one hour east of UTC (offset `3600` s) the request's
`startTime` for day `5` is one hour before that day's UTC midnight, so the
timestamps sent upstream are not the UTC midnights the claim states; and on
a DST-observing machine whose offset moves from `-18000` to `-14400` s
overnight (a spring-forward, as in America/New_York) the two timestamps
differ by 23 hours, not 24. -/
theorem claim_C10_counterexample :
    (FreqConf.dailyVolumeRequest (fun _ => 3600) "BTCUSDT" 5).startTime ≠ 5 * 86400000
    ∧ (FreqConf.dailyVolumeRequest (fun _ => 3600) "BTCUSDT" 5).startTime =
      5 * 86400000 - 3600000
    ∧ (FreqConf.dailyVolumeRequest (fun d => if d = 5 then -18000 else -14400)
          "BTCUSDT" 5).endTime -
        (FreqConf.dailyVolumeRequest (fun d => if d = 5 then -18000 else -14400)
          "BTCUSDT" 5).startTime = 82800000 := by
  decide

/-- C10, amended: for every symbol and calendar date, `get_daily_volume`
requests exactly one daily candle (`limit = 1`, interval `"1d"`); its start
and end timestamps are the local midnights opening the date and the next
date — each UTC midnight shifted by the machine's UTC offset in effect at
that midnight — so the window spans exactly 24 hours if and only if the
offset is the same at both midnights (no DST transition in between), and the
two timestamps are the UTC midnights bounding the calendar date if and only
if both offsets are zero. -/
theorem claim_C10_amended (tzOffset : ℤ → ℤ) (symbol : String) (day : ℤ) :
    (FreqConf.dailyVolumeRequest tzOffset symbol day).limit = 1
    ∧ (FreqConf.dailyVolumeRequest tzOffset symbol day).interval = "1d"
    ∧ (FreqConf.dailyVolumeRequest tzOffset symbol day).startTime =
        day * 86400000 - tzOffset day * 1000
    ∧ (FreqConf.dailyVolumeRequest tzOffset symbol day).endTime -
        (FreqConf.dailyVolumeRequest tzOffset symbol day).startTime =
        86400000 + (tzOffset day - tzOffset (day + 1)) * 1000
    ∧ ((FreqConf.dailyVolumeRequest tzOffset symbol day).endTime -
          (FreqConf.dailyVolumeRequest tzOffset symbol day).startTime = 86400000 ↔
        tzOffset (day + 1) = tzOffset day)
    ∧ ((FreqConf.dailyVolumeRequest tzOffset symbol day).startTime = day * 86400000
          ∧ (FreqConf.dailyVolumeRequest tzOffset symbol day).endTime =
            (day + 1) * 86400000 ↔
        tzOffset day = 0 ∧ tzOffset (day + 1) = 0) := by
  refine ⟨rfl, rfl, ?_, ?_, ?_, ?_⟩
  · simp only [FreqConf.dailyVolumeRequest]
    ring
  · simp only [FreqConf.dailyVolumeRequest]
    ring
  · simp only [FreqConf.dailyVolumeRequest]
    constructor <;> intro h <;> omega
  · simp only [FreqConf.dailyVolumeRequest]
    constructor <;> intro h <;> omega

/-- C10, witness: on a machine whose UTC offset is constantly `0` the request
window for day `5` is exactly `[5 * 86400000, 6 * 86400000)` milliseconds. -/
theorem claim_C10_witness :
    (FreqConf.dailyVolumeRequest (fun _ => 0) "BTCUSDT" 5).startTime = 5 * 86400000
    ∧ (FreqConf.dailyVolumeRequest (fun _ => 0) "BTCUSDT" 5).endTime = (5 + 1) * 86400000 :=
  ((claim_C10_amended (fun _ => 0) "BTCUSDT" 5).2.2.2.2.2).mpr ⟨rfl, rfl⟩
